import Mathlib

/-!
Shallow embedding of the `humanreadable` crate (`src/lib.rs`).

Modelling conventions:
* `u64` values are `Nat`; every theorem that quantifies over a `u64` input
  either carries the bound `x < 2^64` or does not depend on it.
* Rust's `as u64` cast from a signed integer is two's-complement
  reduction modulo `2^64`, modelled on `Int` by `(n % 2^64).toNat`.
* `f64` payloads are modelled as exact rationals `ℚ`; the source only
  divides a nonnegative integer by a positive power of 1024, so the
  payloads of interest are finite and NaN never arises from construction.
* Panics (`iec_prefix[index]` out of bounds, `unreachable!()`) are
  modelled by `Option.none`: a function that panics returns no value.
-/

namespace HumanReadable

/-- The magnitude table: the source's constant `iec_prefix : [u64; 7]`
(powers `1024^0 .. 1024^6`, written as the source writes them). -/
def iecPrefix : List Nat :=
  [1,
   1024,
   1024*1024,
   1024*1024*1024,
   1024*1024*1024*1024,
   1024*1024*1024*1024*1024,
   1024*1024*1024*1024*1024*1024]

/-- The body of the source's `for item in 0..6` loop in `iec_position`:
scan the given item indices in order, return the first `item` with
`iec_prefix[item] <= x && x < iec_prefix[item+1]`, else fall through to `7`.
All indices reaching `getD` are `< 7`, so the default is never used. -/
def iecFind (x : Nat) : List Nat → Nat
  | [] => 7
  | item :: rest =>
      if iecPrefix.getD item 0 ≤ x ∧ x < iecPrefix.getD (item + 1) 0 then item
      else iecFind x rest

/-- The source's `fn iec_position(x: u64) -> usize`. -/
def iec_position (x : Nat) : Nat :=
  iecFind x (List.range 6)

/-- The source's `pub enum IEC` (payloads modelled as `ℚ`, see the header). -/
inductive IEC where
  | B (x : ℚ)
  | KiB (x : ℚ)
  | MiB (x : ℚ)
  | GiB (x : ℚ)
  | TiB (x : ℚ)
  | PiB (x : ℚ)
  | EiB (x : ℚ)
deriving DecidableEq

/-- The `match index` expression at the end of `IEC::new`; the wildcard arm
is the source's `unreachable!()`, a panic, hence `none`. -/
def IEC.mkVariant (index : Nat) (q : ℚ) : Option IEC :=
  match index with
  | 0 => some (IEC.B q)
  | 1 => some (IEC.KiB q)
  | 2 => some (IEC.MiB q)
  | 3 => some (IEC.GiB q)
  | 4 => some (IEC.TiB q)
  | 5 => some (IEC.PiB q)
  | 6 => some (IEC.EiB q)
  | _ => none

/-- The source's `IEC::new`.  `iec_position x` is the source's `index`
binding; `iec_prefix[index]` panics (`none`) when the index is out of
bounds, otherwise `thing / item` is the payload `x as f64 / table entry`. -/
def IEC.new (x : Nat) : Option IEC :=
  match iecPrefix.get? (iec_position x) with
  | none => none
  | some d => IEC.mkVariant (iec_position x) ((x : ℚ) / (d : ℚ))

/-- The source's `IEC::get_val`. -/
def IEC.get_val : IEC → ℚ
  | .B x => x
  | .KiB x => x
  | .MiB x => x
  | .GiB x => x
  | .TiB x => x
  | .PiB x => x
  | .EiB x => x

/-- Rust's `self as u64` two's-complement cast applied to any signed
integer value (the body of the `into_trait!` macro's conversions). -/
def u64_of_int (n : Int) : Nat := (n % (2 ^ 64 : Int)).toNat

/-- The `Into<IEC>` conversion the `into_trait!` macro generates for the
signed integer types: `IEC::new(self as u64)`. -/
def intoIEC (n : Int) : Option IEC := IEC.new (u64_of_int n)

/-- Rust's precision-2 float formatting, on the rational model: round the
value to 2 decimal digits (round half to even, as the float formatter does
on the exact binary value) and print it with exactly two fractional
digits. -/
def roundHalfEven (q : ℚ) : ℤ :=
  if q - ⌊q⌋ < 1 / 2 then ⌊q⌋
  else if q - ⌊q⌋ > 1 / 2 then ⌊q⌋ + 1
  else if ⌊q⌋ % 2 = 0 then ⌊q⌋ else ⌊q⌋ + 1

/-- Render `q` with exactly two decimal digits (see `roundHalfEven`). -/
def fmt2 (q : ℚ) : String :=
  let c := roundHalfEven (q * 100)
  let sgn := if c < 0 then "-" else ""
  let n := c.natAbs
  let whole := n / 100
  let frac := n % 100
  sgn ++ toString whole ++ "." ++
    (if frac < 10 then "0" ++ toString frac else toString frac)

/-- The source's `impl fmt::Display for IEC`: payload to two decimal
digits, then the variant's unit suffix. -/
def IEC.fmtDisplay : IEC → String
  | .B x => fmt2 x ++ "B"
  | .KiB x => fmt2 x ++ "KiB"
  | .MiB x => fmt2 x ++ "MiB"
  | .GiB x => fmt2 x ++ "GiB"
  | .TiB x => fmt2 x ++ "TiB"
  | .PiB x => fmt2 x ++ "PiB"
  | .EiB x => fmt2 x ++ "EiB"

/-- The source's `impl fmt::Debug for IEC` (textually the same match as
`Display`, embedded separately so the two can be compared). -/
def IEC.fmtDebug : IEC → String
  | .B x => fmt2 x ++ "B"
  | .KiB x => fmt2 x ++ "KiB"
  | .MiB x => fmt2 x ++ "MiB"
  | .GiB x => fmt2 x ++ "GiB"
  | .TiB x => fmt2 x ++ "TiB"
  | .PiB x => fmt2 x ++ "PiB"
  | .EiB x => fmt2 x ++ "EiB"

/-- Variant declaration order, as the derived Rust comparisons use it. -/
def IEC.discriminant : IEC → Nat
  | .B _ => 0
  | .KiB _ => 1
  | .MiB _ => 2
  | .GiB _ => 3
  | .TiB _ => 4
  | .PiB _ => 5
  | .EiB _ => 6

/-- Payload comparison, the `f64` partial comparison in the rational
(NaN-free) model. -/
def fcmp (x y : ℚ) : Option Ordering :=
  if x < y then some Ordering.lt
  else if x = y then some Ordering.eq
  else some Ordering.gt

/-- The derived `PartialEq for IEC`: same variant and equal payloads. -/
def IEC.beq (a b : IEC) : Bool :=
  match a, b with
  | .B x, .B y => decide (x = y)
  | .KiB x, .KiB y => decide (x = y)
  | .MiB x, .MiB y => decide (x = y)
  | .GiB x, .GiB y => decide (x = y)
  | .TiB x, .TiB y => decide (x = y)
  | .PiB x, .PiB y => decide (x = y)
  | .EiB x, .EiB y => decide (x = y)
  | _, _ => false

/-- The derived `PartialOrd for IEC`: variants compare by declaration
order; within a variant, payloads compare as `f64`s. -/
def IEC.cmpOpt (a b : IEC) : Option Ordering :=
  match a, b with
  | .B x, .B y => fcmp x y
  | .KiB x, .KiB y => fcmp x y
  | .MiB x, .MiB y => fcmp x y
  | .GiB x, .GiB y => fcmp x y
  | .TiB x, .TiB y => fcmp x y
  | .PiB x, .PiB y => fcmp x y
  | .EiB x, .EiB y => fcmp x y
  | _, _ =>
      if a.discriminant < b.discriminant then some Ordering.lt
      else some Ordering.gt

/-- Characterisation of `iec_position`, read off from the loop. -/
lemma iec_position_char (x : Nat) :
    iec_position x =
      if 1 ≤ x ∧ x < 1024 then 0
      else if 1024 ≤ x ∧ x < 1048576 then 1
      else if 1048576 ≤ x ∧ x < 1073741824 then 2
      else if 1073741824 ≤ x ∧ x < 1099511627776 then 3
      else if 1099511627776 ≤ x ∧ x < 1125899906842624 then 4
      else if 1125899906842624 ≤ x ∧ x < 1152921504606846976 then 5
      else 7 := by
  show iecFind x [0, 1, 2, 3, 4, 5] = _
  have g0 : iecPrefix.getD 0 0 = 1 := rfl
  have g1 : iecPrefix.getD 1 0 = 1024 := rfl
  have g2 : iecPrefix.getD 2 0 = 1048576 := rfl
  have g3 : iecPrefix.getD 3 0 = 1073741824 := rfl
  have g4 : iecPrefix.getD 4 0 = 1099511627776 := rfl
  have g5 : iecPrefix.getD 5 0 = 1125899906842624 := rfl
  have g6 : iecPrefix.getD 6 0 = 1152921504606846976 := rfl
  simp only [iecFind]
  rw [g0, g1, g2, g3, g4, g5, g6]

/-- The loop of `iec_position` only ever produces `0..5` or the
fall-through value `7`. -/
lemma iec_position_cases (x : Nat) :
    iec_position x ≤ 5 ∨ iec_position x = 7 := by
  have h := iec_position_char x
  split_ifs at h <;> omega

/-- For a magnitude at or above `1024^6` the loop finds no bucket. -/
lemma iec_position_eq_seven_of_large (x : Nat) (h : 1152921504606846976 ≤ x) :
    iec_position x = 7 := by
  have hc := iec_position_char x
  split_ifs at hc <;> omega

/-- When the sentinel index is produced, `iec_prefix[7]` is out of bounds
and `IEC::new` panics: the model returns no value. -/
lemma new_eq_none_of_sentinel (x : Nat) (h : iec_position x = 7) :
    IEC.new x = none := by
  unfold IEC.new
  rw [h]
  rfl

/-- Evaluation of `IEC::new` on each branch of `iec_position_char`. -/
lemma new_char (x : Nat) :
    IEC.new x =
      if 1 ≤ x ∧ x < 1024 then some (IEC.B ((x : ℚ) / 1))
      else if 1024 ≤ x ∧ x < 1048576 then some (IEC.KiB ((x : ℚ) / 1024))
      else if 1048576 ≤ x ∧ x < 1073741824 then
        some (IEC.MiB ((x : ℚ) / 1048576))
      else if 1073741824 ≤ x ∧ x < 1099511627776 then
        some (IEC.GiB ((x : ℚ) / 1073741824))
      else if 1099511627776 ≤ x ∧ x < 1125899906842624 then
        some (IEC.TiB ((x : ℚ) / 1099511627776))
      else if 1125899906842624 ≤ x ∧ x < 1152921504606846976 then
        some (IEC.PiB ((x : ℚ) / 1125899906842624))
      else none := by
  have hc := iec_position_char x
  split_ifs at hc ⊢ <;>
    · unfold IEC.new
      rw [hc]
      norm_num [IEC.mkVariant, iecPrefix]

/-- C1: for every `u64` input `x` with `x ≥ 1024^6`, `IEC::new` reaches the
sentinel bucket index `7`, which indexes past the end of the 7-entry
magnitude table, so construction returns no value: the out-of-bounds panic
branch of `IEC::new` is reachable. -/
theorem iec_new_panics_at_or_above_exbi (x : Nat) (hu : x < 2 ^ 64)
    (h : 1024 ^ 6 ≤ x) :
    iec_position x = 7 ∧ IEC.new x = none := by
  have h' : 1152921504606846976 ≤ x := by norm_num at h; omega
  have hp := iec_position_eq_seven_of_large x h'
  exact ⟨hp, new_eq_none_of_sentinel x hp⟩

theorem iec_new_panics_at_or_above_exbi_witness :
    (1024 ^ 6 : Nat) < 2 ^ 64 ∧ (1024 ^ 6 : Nat) ≤ 1024 ^ 6 ∧
      (iec_position (1024 ^ 6) = 7 ∧ IEC.new (1024 ^ 6) = none) :=
  ⟨by norm_num, le_refl _,
    iec_new_panics_at_or_above_exbi (1024 ^ 6) (by norm_num) (le_refl _)⟩

/-- C2 (failing input): the claim says `iec_position 0 = 0`, but the loop's
lower-bound test `iec_prefix[0] <= x` fails at `x = 0` (`1 ≤ 0` is false),
so the code falls through to the sentinel `7` although `0 < 1024^6`. -/
theorem iec_position_zero_is_sentinel :
    iec_position 0 = 7 ∧ (0 : Nat) < 1024 ^ 6 := by
  constructor
  · rfl
  · norm_num

/-- C3 (failing input): `x = 0` does not exceed `1024^6`, yet `IEC::new 0`
hits the sentinel bucket and panics, so there is no constructed value (in
particular no `Byte` variant carrying payload `0`). -/
theorem iec_new_zero_returns_no_value : IEC.new 0 = none := rfl

/-- C7 (failing input): at `x = 0 < 1024^6` the round-trip property cannot
even be evaluated: `IEC::new 0` panics (no payload exists) and
`iec_prefix[iec_position 0]` is itself an out-of-bounds access. -/
theorem roundtrip_breaks_at_zero :
    IEC.new 0 = none ∧ iecPrefix.get? (iec_position 0) = none :=
  ⟨rfl, rfl⟩

/-- C8 (failing input): bucket selection is not monotone: `0 < 1` but
`iec_position 0 = 7 > 0 = iec_position 1`. -/
theorem iec_position_not_monotone :
    (0 : Nat) < 1 ∧ ¬ iec_position 0 ≤ iec_position 1 := by
  refine ⟨Nat.zero_lt_one, ?_⟩
  have h0 : iec_position 0 = 7 := rfl
  have h1 : iec_position 1 = 0 := rfl
  omega

/-- C5: every negative value of a signed integer type (all of whose
negative ranges lie in `[-2^63, -1]`) is cast by `self as u64` to a value
of at least `2^63 ≥ 1024^6`, so the generated `Into<IEC>` conversion hits
the sentinel bucket and returns no value. -/
theorem into_iec_negative_never_constructs (n : Int) (hlo : -(2 ^ 63) ≤ n)
    (hneg : n < 0) :
    2 ^ 63 ≤ u64_of_int n ∧ iec_position (u64_of_int n) = 7 ∧
      intoIEC n = none := by
  have hval : 9223372036854775808 ≤ u64_of_int n := by
    unfold u64_of_int
    have e : (2 : Int) ^ 64 = 18446744073709551616 := by norm_num
    have e' : -(2 : Int) ^ 63 = -9223372036854775808 := by norm_num
    rw [e]
    rw [e'] at hlo
    omega
  have hbig : 1152921504606846976 ≤ u64_of_int n := by omega
  have hp := iec_position_eq_seven_of_large _ hbig
  refine ⟨?_, hp, new_eq_none_of_sentinel _ hp⟩
  have e2 : (2 : Nat) ^ 63 = 9223372036854775808 := by norm_num
  rw [e2]
  exact hval

theorem into_iec_negative_never_constructs_witness :
    -(2 ^ 63 : Int) ≤ -1 ∧ (-1 : Int) < 0 ∧
      (2 ^ 63 ≤ u64_of_int (-1) ∧ iec_position (u64_of_int (-1)) = 7 ∧
        intoIEC (-1) = none) :=
  ⟨by norm_num, by norm_num,
    into_iec_negative_never_constructs (-1) (by norm_num) (by norm_num)⟩

/-- C6: whenever `IEC::new` returns a value, that value is not the `EiB`
variant; the range `[1024^5, 1024^6)` maps to the `PiB` variant; and the
bucket-selection loop never produces index `6`. -/
theorem iec_new_never_returns_eib :
    (∀ x : Nat, ∀ v : IEC, IEC.new x = some v → ∀ q : ℚ, v ≠ IEC.EiB q) ∧
    (∀ x : Nat, 1024 ^ 5 ≤ x → x < 1024 ^ 6 →
      IEC.new x = some (IEC.PiB ((x : ℚ) / 1024 ^ 5))) ∧
    (∀ x : Nat, iec_position x ≠ 6) := by
  refine ⟨?_, ?_, ?_⟩
  · intro x v hv q
    have hn := new_char x
    split_ifs at hn <;> rw [hv] at hn <;> simp_all
  · intro x h1 h2
    have h1' : 1125899906842624 ≤ x := by
      have : (1024 : Nat) ^ 5 = 1125899906842624 := by norm_num
      omega
    have h2' : x < 1152921504606846976 := by
      have : (1024 : Nat) ^ 6 = 1152921504606846976 := by norm_num
      omega
    have hp : iec_position x = 5 := by
      have hc := iec_position_char x
      split_ifs at hc <;> omega
    unfold IEC.new
    rw [hp]
    norm_num [IEC.mkVariant, iecPrefix]
  · intro x
    have hc := iec_position_char x
    split_ifs at hc <;> omega

theorem iec_new_never_returns_eib_witness :
    (IEC.B ((5 : ℚ) / 1) ≠ IEC.EiB 3) ∧
      IEC.new (1024 ^ 5) = some (IEC.PiB ((1024 ^ 5 : ℚ) / 1024 ^ 5)) := by
  constructor
  · exact iec_new_never_returns_eib.1 5 (IEC.B ((5 : ℚ) / 1))
      (by rw [new_char]; norm_num) 3
  · have h := iec_new_never_returns_eib.2.1 (1024 ^ 5) (le_refl _) (by norm_num)
    norm_num at h ⊢
    exact h

/-- C4 (failing input): rendering `IEC::new(0)` produces no string at all,
because the constructor already panics, so the claimed output `"0.00B"`
never appears; the nonzero example of the claim does hold:
`IEC::new(5000)` renders as `"4.88KiB"`. -/
theorem display_of_new_zero_has_no_string :
    Option.map IEC.fmtDisplay (IEC.new 0) = none ∧
      Option.map IEC.fmtDisplay (IEC.new 5000) = some "4.88KiB" := by
  constructor
  · rfl
  · have h5 : IEC.new 5000 = some (IEC.KiB ((5000 : ℚ) / 1024)) := by
      rw [new_char]
      norm_num
    rw [h5]
    refine congrArg some ?_
    have harg : ((5000 : ℚ) / 1024) * 100 = 15625 / 32 := by norm_num
    have hf : ⌊(15625 / 32 : ℚ)⌋ = 488 := by norm_num
    have hr : roundHalfEven (((5000 : ℚ) / 1024) * 100) = 488 := by
      unfold roundHalfEven
      rw [harg, hf]
      norm_num
    simp only [IEC.fmtDisplay, fmt2]
    rw [hr]
    rfl

/-- Payload comparison agrees with the numeric order on `ℚ`. -/
lemma fcmp_spec (x y : ℚ) :
    (fcmp x y = some Ordering.eq ↔ x = y) ∧
    (fcmp x y = some Ordering.lt ↔ x < y) ∧
    (fcmp x y = some Ordering.gt ↔ y < x) := by
  unfold fcmp
  rcases lt_trichotomy x y with h | h | h
  · refine ⟨?_, ?_, ?_⟩ <;> simp [h, h.ne, not_lt.mpr h.le]
  · subst h
    refine ⟨?_, ?_, ?_⟩ <;> simp [lt_irrefl]
  · refine ⟨?_, ?_, ?_⟩ <;> simp [h, h.ne', not_lt.mpr h.le]

/-- C9: for two `IEC` values carrying the same variant, the derived
`PartialEq`/`PartialOrd` comparisons agree exactly with the numeric
ordering of the payloads. -/
theorem same_variant_cmp_matches_payload_order (a b : IEC)
    (h : a.discriminant = b.discriminant) :
    (IEC.beq a b = true ↔ a.get_val = b.get_val) ∧
    (IEC.cmpOpt a b = some Ordering.eq ↔ a.get_val = b.get_val) ∧
    (IEC.cmpOpt a b = some Ordering.lt ↔ a.get_val < b.get_val) ∧
    (IEC.cmpOpt a b = some Ordering.gt ↔ b.get_val < a.get_val) := by
  cases a <;> cases b <;> simp only [IEC.discriminant] at h <;>
    first
      | exact absurd h (by decide)
      | · simp only [IEC.beq, IEC.cmpOpt, IEC.get_val, decide_eq_true_iff]
          exact ⟨trivial, (fcmp_spec _ _).1, (fcmp_spec _ _).2.1,
            (fcmp_spec _ _).2.2⟩

theorem same_variant_cmp_matches_payload_order_witness :
    (IEC.B 1).discriminant = (IEC.B 2).discriminant ∧
      (IEC.cmpOpt (IEC.B 1) (IEC.B 2) = some Ordering.lt ↔
        (IEC.B 1).get_val < (IEC.B 2).get_val) :=
  ⟨rfl,
    (same_variant_cmp_matches_payload_order (IEC.B 1) (IEC.B 2) rfl).2.2.1⟩

/-- C10: the `Display` and `Debug` implementations render every `IEC`
value to the identical string. -/
theorem display_eq_debug : ∀ v : IEC, IEC.fmtDisplay v = IEC.fmtDebug v := by
  intro v
  cases v <;> rfl

end HumanReadable
